import Mathlib

/-!
Verification of the graph-traversal core of `maya_node_graph.py`.

The module under study performs breadth-first traversal of Maya's dependency
graph (`traverse_graph`), derives typed queries from it
(`find_connected_nodes_by_type`), normalises raw plug pairs into directed
connection records (`get_all_connections`), and offers an OpenMaya-based
fast-path iterator (`DGIterator`).

The host system (Maya's `cmds` / OpenMaya API) is modelled as an abstract
`Provider` supplying node existence, node type, adjacency lists and raw plug
lists; the Python generator is modelled as a fuel-indexed recursive function
returning `none` when the fuel runs out and `some` (output, final visited set)
when the queue empties.  Termination is then the existence of sufficient fuel.
-/

/-- Direction for graph traversal (`TraversalDirection` enum in the source). -/
inductive TraversalDirection where
  | upstream
  | downstream
  | both
deriving DecidableEq

/-- The host scene graph, as consumed by `maya_node_graph.py`:
`objExists` is `cmds.objExists`, `nodeTypeOf` is `cmds.nodeType`,
`upstreamConns n` is `cmds.listConnections(n, source=True, destination=False)`,
`downstreamConns n` is `cmds.listConnections(n, source=False, destination=True)`,
and `plugConns n` is the flat plug list returned by
`cmds.listConnections(n, connections=True, plugs=True)`. -/
structure Provider where
  objExists : String → Bool
  nodeTypeOf : String → String
  upstreamConns : String → List String
  downstreamConns : String → List String
  plugConns : String → List String

/-- The `next_nodes` list built in the body of `traverse_graph`: the upstream
list when direction is UPSTREAM or BOTH, extended by the downstream list when
direction is DOWNSTREAM or BOTH. -/
def nextNodes (p : Provider) (dir : TraversalDirection) (n : String) : List String :=
  (if dir = TraversalDirection.upstream ∨ dir = TraversalDirection.both then
    p.upstreamConns n
  else []) ++
  (if dir = TraversalDirection.downstream ∨ dir = TraversalDirection.both then
    p.downstreamConns n
  else [])

/-- Python truthiness of the `node_filter` argument (`if node_filter:`):
`None` and the empty set are falsy, a non-empty set is truthy. -/
def truthy (nf : Option (Finset String)) : Bool :=
  match nf with
  | none => false
  | some s => decide (s ≠ ∅)

/-- The set consulted by `node_type not in node_filter` (only reached when
`truthy nf` holds, in which case `nf = some (nfSet nf)`). -/
def nfSet (nf : Option (Finset String)) : Finset String :=
  nf.getD ∅

/-- The records appended to the queue when expanding the current node `c` at
depth `d`: every entry of `next_nodes` that is not in `visited` (which at that
point already contains `c`), paired with depth `d + 1`, in list order. -/
def enqueued (p : Provider) (dir : TraversalDirection) (visited : Finset String)
    (c : String) (d : Nat) : List (String × Nat) :=
  ((nextNodes p dir c).filter (fun n => decide (n ∉ visited))).map (fun n => (n, d + 1))

/-- The `while queue:` loop of `traverse_graph`, fuel-indexed.  One unit of
fuel is consumed per loop iteration; `none` means the fuel ran out, and
`some (out, visited)` means the queue emptied, having yielded `out` and
accumulated `visited`.  The branches mirror the source exactly:
skip if already visited; skip if `max_depth >= 0 and depth > max_depth`;
mark visited; if the filter is truthy and the node's type fails it, continue
without yielding or expanding; otherwise yield and enqueue the unvisited
next nodes at depth + 1. -/
def traverseFrom (p : Provider) (dir : TraversalDirection) (maxDepth : Int)
    (nf : Option (Finset String)) :
    Nat → Finset String → List (String × Nat) → Option (List (String × Nat) × Finset String)
  | _, visited, [] => some ([], visited)
  | 0, _, _ :: _ => none
  | fuel + 1, visited, (c, d) :: rest =>
    if c ∈ visited then
      traverseFrom p dir maxDepth nf fuel visited rest
    else if 0 ≤ maxDepth ∧ maxDepth < (d : Int) then
      traverseFrom p dir maxDepth nf fuel visited rest
    else
      let visited' := insert c visited
      if truthy nf ∧ p.nodeTypeOf c ∉ nfSet nf then
        traverseFrom p dir maxDepth nf fuel visited' rest
      else
        Option.map (fun r => ((c, d) :: r.1, r.2))
          (traverseFrom p dir maxDepth nf fuel visited' (rest ++ enqueued p dir visited' c d))

/-- `traverse_graph`: if the start node does not exist, log and yield nothing;
otherwise run the BFS loop seeded with `(start, 0)` and an empty visited set.
The final visited set is internal, so only the yielded records are returned. -/
def traverse_graph (p : Provider) (start : String) (dir : TraversalDirection)
    (maxDepth : Int) (nf : Option (Finset String)) (fuel : Nat) :
    Option (List (String × Nat)) :=
  if p.objExists start then
    Option.map Prod.fst (traverseFrom p dir maxDepth nf fuel ∅ [(start, 0)])
  else
    some []

/-- `find_connected_nodes_by_type`: iterate `traverse_graph(start, direction)`
(defaults: `max_depth = -1`, `node_filter = None`) and append each visited node
whose `cmds.nodeType` equals the target type. -/
def find_connected_nodes_by_type (p : Provider) (start target : String)
    (dir : TraversalDirection) (fuel : Nat) : Option (List String) :=
  Option.map
    (fun out =>
      out.foldl (fun acc x => if p.nodeTypeOf x.1 = target then acc ++ [x.1] else acc) [])
    (traverse_graph p start dir (-1) none fuel)

/-- `ConnectionInfo` dataclass. -/
structure ConnectionInfo where
  source_node : String
  source_attr : String
  dest_node : String
  dest_attr : String
deriving DecidableEq

/-- Split a character list at the first dot, dropping the dot. -/
def splitFirstDot : List Char → List Char × List Char
  | [] => ([], [])
  | ch :: cs =>
    if ch = '.' then ([], cs)
    else
      let r := splitFirstDot cs
      (ch :: r.1, r.2)

/-- Python's `plug.split(".", 1)`: the node part before the first dot and the
attribute part after it.  (On a dotless string Python raises at the unpacking
site; such plugs never occur, and here the attribute part is empty.) -/
def splitPlug (s : String) : String × String :=
  ((splitFirstDot s.data).1.asString, (splitFirstDot s.data).2.asString)

/-- The record built by `get_all_connections` from one plug pair: if the first
plug's node part equals the queried node, the other endpoint is stored as the
source and the queried node as the destination; otherwise the pair is taken in
the given order as (source, destination). -/
def mkConnection (node : String) (plug_a plug_b : String) : ConnectionInfo :=
  let na := (splitPlug plug_a).1
  let aa := (splitPlug plug_a).2
  let nb := (splitPlug plug_b).1
  let ab := (splitPlug plug_b).2
  if na = node then
    { source_node := nb, source_attr := ab, dest_node := na, dest_attr := aa }
  else
    { source_node := na, source_attr := aa, dest_node := nb, dest_attr := ab }

/-- The `for i in range(0, len(plugs), 2)` loop: consume the flat plug list two
at a time.  (An odd-length list would raise IndexError in Python; the host
always returns an even-length list, and here a trailing singleton is dropped.) -/
def pairConnections (node : String) : List String → List ConnectionInfo
  | a :: b :: rest => mkConnection node a b :: pairConnections node rest
  | _ => []

/-- `get_all_connections`: empty for a nonexistent node, otherwise one record
per consecutive plug pair. -/
def get_all_connections (p : Provider) (node : String) : List ConnectionInfo :=
  if p.objExists node then pairConnections node (p.plugConns node) else []

/-- A node passes the filter when the filter is not truthy (absent or empty)
or its type is in the filter set; `traverse_graph` yields and expands exactly
the dequeued unvisited, depth-admissible nodes that pass. -/
def passes (p : Provider) (nf : Option (Finset String)) (n : String) : Prop :=
  truthy nf = false ∨ p.nodeTypeOf n ∈ nfSet nf

/-- Reachability from `start` along `nextNodes` edges through filter-passing
nodes: every node on the path except possibly the endpoint passes the filter.
With `nf = none` this is plain reachability in the chosen direction. -/
inductive ReachPass (p : Provider) (dir : TraversalDirection)
    (nf : Option (Finset String)) (start : String) : String → Prop
  | refl : ReachPass p dir nf start start
  | step {m n : String} : ReachPass p dir nf start m → passes p nf m →
      n ∈ nextNodes p dir m → ReachPass p dir nf start n

/-- Modelled from the spec: the host's native name-resolution primitive
`resolveUnique` (§6), realised in the source by `om.MSelectionList().add(name)`
followed by `getDependNode(0)`.  The OpenMaya API is external to the
repository; per the spec it fails (raises) when the name resolves to zero or
multiple nodes, and otherwise returns the node's handle, modelled as a `Nat`. -/
structure MayaHost where
  resolveUnique : String → Except String Nat

/-- `DGIterator`: holds the resolved `_start_obj` handle. -/
structure DGIterator where
  start_obj : Nat

/-- `DGIterator.__init__`: resolve the start name via the host; a resolution
failure propagates out of the constructor (there is no exception handler), so
no iterator object is produced. -/
def DGIterator.construct (host : MayaHost) (start : String) : Except String DGIterator :=
  match host.resolveUnique start with
  | Except.error e => Except.error e
  | Except.ok h => Except.ok { start_obj := h }

/-! ### Concrete providers used for scenarios and witnesses -/

/-- The three-node cycle `A→B→C→A` (each node's type is its own name). -/
def cycleP : Provider where
  objExists n := n == "A" || n == "B" || n == "C"
  nodeTypeOf n := n
  upstreamConns n := if n = "A" then ["C"] else if n = "B" then ["A"] else if n = "C" then ["B"] else []
  downstreamConns n := if n = "A" then ["B"] else if n = "B" then ["C"] else if n = "C" then ["A"] else []
  plugConns _ := []

/-- The chain `A→B→C` (each node's type is its own name). -/
def chainP : Provider where
  objExists n := n == "A" || n == "B" || n == "C"
  nodeTypeOf n := n
  upstreamConns n := if n = "B" then ["A"] else if n = "C" then ["B"] else []
  downstreamConns n := if n = "A" then ["B"] else if n = "B" then ["C"] else []
  plugConns _ := []

/-- A provider whose adjacency list for `A` holds a duplicated neighbor:
upstream of `A` is `[B, B]`. -/
def dupP : Provider where
  objExists n := n == "A" || n == "B"
  nodeTypeOf n := n
  upstreamConns n := if n = "A" then ["B", "B"] else []
  downstreamConns _ := []
  plugConns _ := []

/-- A provider where node `n` has a single connected link pair whose first
plug is `n`'s own output port: `plugs = ["n.out", "o.in"]`, i.e. the link
`n.out → o.in` with `n`'s port on the output side. -/
def plugP : Provider where
  objExists n := n == "n" || n == "o"
  nodeTypeOf n := n
  upstreamConns _ := []
  downstreamConns _ := []
  plugConns n := if n = "n" then ["n.out", "o.in"] else []

/-! ### Step equations for the traversal loop -/

theorem tf_nil (p : Provider) (dir : TraversalDirection) (maxDepth : Int)
    (nf : Option (Finset String)) (fuel : Nat) (v : Finset String) :
    traverseFrom p dir maxDepth nf fuel v [] = some ([], v) := by
  cases fuel <;> rfl

theorem tf_stop (p : Provider) (dir : TraversalDirection) (maxDepth : Int)
    (nf : Option (Finset String)) (v : Finset String) (c : String) (d : Nat)
    (rest : List (String × Nat)) :
    traverseFrom p dir maxDepth nf 0 v ((c, d) :: rest) = none := rfl

theorem tf_visited {p : Provider} {dir : TraversalDirection} {maxDepth : Int}
    {nf : Option (Finset String)} {fuel : Nat} {v : Finset String} {c : String} {d : Nat}
    {rest : List (String × Nat)} (hc : c ∈ v) :
    traverseFrom p dir maxDepth nf (fuel + 1) v ((c, d) :: rest) =
      traverseFrom p dir maxDepth nf fuel v rest := by
  simp [traverseFrom, hc]

theorem tf_deep {p : Provider} {dir : TraversalDirection} {maxDepth : Int}
    {nf : Option (Finset String)} {fuel : Nat} {v : Finset String} {c : String} {d : Nat}
    {rest : List (String × Nat)} (hd : 0 ≤ maxDepth ∧ maxDepth < (d : Int)) :
    traverseFrom p dir maxDepth nf (fuel + 1) v ((c, d) :: rest) =
      traverseFrom p dir maxDepth nf fuel v rest := by
  by_cases hc : c ∈ v <;> simp [traverseFrom, hc, hd]

theorem tf_filtered {p : Provider} {dir : TraversalDirection} {maxDepth : Int}
    {nf : Option (Finset String)} {fuel : Nat} {v : Finset String} {c : String} {d : Nat}
    {rest : List (String × Nat)} (hc : c ∉ v) (hd : ¬(0 ≤ maxDepth ∧ maxDepth < (d : Int)))
    (hf : truthy nf ∧ p.nodeTypeOf c ∉ nfSet nf) :
    traverseFrom p dir maxDepth nf (fuel + 1) v ((c, d) :: rest) =
      traverseFrom p dir maxDepth nf fuel (insert c v) rest := by
  simp [traverseFrom, hc, hd, hf]

theorem tf_yield {p : Provider} {dir : TraversalDirection} {maxDepth : Int}
    {nf : Option (Finset String)} {fuel : Nat} {v : Finset String} {c : String} {d : Nat}
    {rest : List (String × Nat)} (hc : c ∉ v) (hd : ¬(0 ≤ maxDepth ∧ maxDepth < (d : Int)))
    (hf : ¬(truthy nf ∧ p.nodeTypeOf c ∉ nfSet nf)) :
    traverseFrom p dir maxDepth nf (fuel + 1) v ((c, d) :: rest) =
      Option.map (fun r => ((c, d) :: r.1, r.2))
        (traverseFrom p dir maxDepth nf fuel (insert c v)
          (rest ++ enqueued p dir (insert c v) c d)) := by
  simp [traverseFrom, hc, hd, hf]

/-! ### Fuel monotonicity and parameter congruences -/

theorem tf_mono (p : Provider) (dir : TraversalDirection) (maxDepth : Int)
    (nf : Option (Finset String)) :
    ∀ fuel fuel' (v : Finset String) (q : List (String × Nat)) r, fuel ≤ fuel' →
      traverseFrom p dir maxDepth nf fuel v q = some r →
      traverseFrom p dir maxDepth nf fuel' v q = some r := by
  intro fuel
  induction fuel with
  | zero =>
    intro fuel' v q r _ h
    cases q with
    | nil => rw [tf_nil] at h; rw [tf_nil]; exact h
    | cons x rest =>
      obtain ⟨c, d⟩ := x
      rw [tf_stop] at h
      exact absurd h (by simp)
  | succ n ih =>
    intro fuel' v q r hle h
    cases q with
    | nil => rw [tf_nil] at h; rw [tf_nil]; exact h
    | cons x rest =>
      obtain ⟨c, d⟩ := x
      obtain ⟨m, rfl⟩ : ∃ m, fuel' = m + 1 := ⟨fuel' - 1, by omega⟩
      have hnm : n ≤ m := by omega
      by_cases hc : c ∈ v
      · rw [tf_visited hc] at h
        rw [tf_visited hc]
        exact ih m v rest r hnm h
      · by_cases hd : 0 ≤ maxDepth ∧ maxDepth < (d : Int)
        · rw [tf_deep hd] at h
          rw [tf_deep hd]
          exact ih m v rest r hnm h
        · by_cases hf : truthy nf ∧ p.nodeTypeOf c ∉ nfSet nf
          · rw [tf_filtered hc hd hf] at h
            rw [tf_filtered hc hd hf]
            exact ih m _ rest r hnm h
          · rw [tf_yield hc hd hf] at h
            rw [tf_yield hc hd hf]
            obtain ⟨r', hr', hfr⟩ := Option.map_eq_some'.mp h
            rw [ih m _ _ r' hnm hr']
            simp [hfr]

theorem tf_congr_filter (p : Provider) (dir : TraversalDirection) (maxDepth : Int)
    {nf nf' : Option (Finset String)} (ht : truthy nf = truthy nf')
    (hs : nfSet nf = nfSet nf') :
    ∀ fuel (v : Finset String) (q : List (String × Nat)),
      traverseFrom p dir maxDepth nf fuel v q = traverseFrom p dir maxDepth nf' fuel v q := by
  intro fuel
  induction fuel with
  | zero =>
    intro v q
    cases q with
    | nil => rw [tf_nil, tf_nil]
    | cons x rest => obtain ⟨c, d⟩ := x; rw [tf_stop, tf_stop]
  | succ n ih =>
    intro v q
    cases q with
    | nil => rw [tf_nil, tf_nil]
    | cons x rest =>
      obtain ⟨c, d⟩ := x
      by_cases hc : c ∈ v
      · rw [tf_visited hc, tf_visited hc, ih]
      · by_cases hd : 0 ≤ maxDepth ∧ maxDepth < (d : Int)
        · rw [tf_deep hd, tf_deep hd, ih]
        · by_cases hf : truthy nf ∧ p.nodeTypeOf c ∉ nfSet nf
          · have hf' : truthy nf' ∧ p.nodeTypeOf c ∉ nfSet nf' := by
              rw [← ht, ← hs]; exact hf
            rw [tf_filtered hc hd hf, tf_filtered hc hd hf', ih]
          · have hf' : ¬(truthy nf' ∧ p.nodeTypeOf c ∉ nfSet nf') := by
              rw [← ht, ← hs]; exact hf
            rw [tf_yield hc hd hf, tf_yield hc hd hf', ih]

theorem tf_congr_negdepth (p : Provider) (dir : TraversalDirection)
    (nf : Option (Finset String)) {maxDepth maxDepth' : Int}
    (h : maxDepth < 0) (h' : maxDepth' < 0) :
    ∀ fuel (v : Finset String) (q : List (String × Nat)),
      traverseFrom p dir maxDepth nf fuel v q = traverseFrom p dir maxDepth' nf fuel v q := by
  intro fuel
  induction fuel with
  | zero =>
    intro v q
    cases q with
    | nil => rw [tf_nil, tf_nil]
    | cons x rest => obtain ⟨c, d⟩ := x; rw [tf_stop, tf_stop]
  | succ n ih =>
    intro v q
    cases q with
    | nil => rw [tf_nil, tf_nil]
    | cons x rest =>
      obtain ⟨c, d⟩ := x
      have hd : ¬(0 ≤ maxDepth ∧ maxDepth < (d : Int)) := by omega
      have hd' : ¬(0 ≤ maxDepth' ∧ maxDepth' < (d : Int)) := by omega
      by_cases hc : c ∈ v
      · rw [tf_visited hc, tf_visited hc, ih]
      · by_cases hf : truthy nf ∧ p.nodeTypeOf c ∉ nfSet nf
        · rw [tf_filtered hc hd hf, tf_filtered hc hd' hf, ih]
        · rw [tf_yield hc hd hf, tf_yield hc hd' hf, ih]

/-! ### Inversion helpers -/

theorem tf_nil_inv {p : Provider} {dir : TraversalDirection} {maxDepth : Int}
    {nf : Option (Finset String)} {fuel : Nat} {v v' : Finset String}
    {out : List (String × Nat)}
    (h : traverseFrom p dir maxDepth nf fuel v [] = some (out, v')) :
    out = [] ∧ v' = v := by
  rw [tf_nil] at h
  injection h with h2
  exact ⟨(congrArg Prod.fst h2).symm, (congrArg Prod.snd h2).symm⟩

theorem tf_yield_inv {p : Provider} {dir : TraversalDirection} {maxDepth : Int}
    {nf : Option (Finset String)} {fuel : Nat} {v v' : Finset String} {c : String}
    {d : Nat} {rest out : List (String × Nat)}
    (hc : c ∉ v) (hd : ¬(0 ≤ maxDepth ∧ maxDepth < (d : Int)))
    (hf : ¬(truthy nf ∧ p.nodeTypeOf c ∉ nfSet nf))
    (h : traverseFrom p dir maxDepth nf (fuel + 1) v ((c, d) :: rest) = some (out, v')) :
    ∃ out1, out = (c, d) :: out1 ∧
      traverseFrom p dir maxDepth nf fuel (insert c v)
        (rest ++ enqueued p dir (insert c v) c d) = some (out1, v') := by
  rw [tf_yield hc hd hf] at h
  obtain ⟨r', hr', hfr⟩ := Option.map_eq_some'.mp h
  refine ⟨r'.1, (congrArg Prod.fst hfr).symm, ?_⟩
  have h2 : r'.2 = v' := congrArg Prod.snd hfr
  rw [← h2]
  exact hr'

theorem mem_enqueued {p : Provider} {dir : TraversalDirection} {vis : Finset String}
    {c m : String} {d : Nat} :
    (m, d + 1) ∈ enqueued p dir vis c d ↔ m ∈ nextNodes p dir c ∧ m ∉ vis := by
  simp [enqueued]

theorem mem_enqueued_elim {p : Provider} {dir : TraversalDirection} {vis : Finset String}
    {c : String} {d : Nat} {x : String × Nat} (h : x ∈ enqueued p dir vis c d) :
    x.1 ∈ nextNodes p dir c ∧ x.1 ∉ vis ∧ x.2 = d + 1 := by
  simp only [enqueued, List.mem_map, List.mem_filter] at h
  obtain ⟨a, ⟨h1, h2⟩, rfl⟩ := h
  exact ⟨h1, by simpa using h2, rfl⟩

/-! ### Traversal invariants -/

theorem tf_visited_subset (p : Provider) (dir : TraversalDirection) (maxDepth : Int)
    (nf : Option (Finset String)) :
    ∀ fuel (v : Finset String) q out v',
      traverseFrom p dir maxDepth nf fuel v q = some (out, v') → v ⊆ v' := by
  intro fuel
  induction fuel with
  | zero =>
    intro v q out v' h
    cases q with
    | nil =>
      obtain ⟨rfl, rfl⟩ := tf_nil_inv h
      exact Finset.Subset.refl _
    | cons x rest =>
      obtain ⟨c, d⟩ := x
      rw [tf_stop] at h
      exact absurd h (by simp)
  | succ k ih =>
    intro v q out v' h
    cases q with
    | nil =>
      obtain ⟨rfl, rfl⟩ := tf_nil_inv h
      exact Finset.Subset.refl _
    | cons x rest =>
      obtain ⟨c, d⟩ := x
      by_cases hc : c ∈ v
      · rw [tf_visited hc] at h
        exact ih v rest out v' h
      · by_cases hd : 0 ≤ maxDepth ∧ maxDepth < (d : Int)
        · rw [tf_deep hd] at h
          exact ih v rest out v' h
        · by_cases hf : truthy nf ∧ p.nodeTypeOf c ∉ nfSet nf
          · rw [tf_filtered hc hd hf] at h
            exact (Finset.subset_insert c v).trans (ih _ _ _ _ h)
          · obtain ⟨out1, rfl, hr⟩ := tf_yield_inv hc hd hf h
            exact (Finset.subset_insert c v).trans (ih _ _ _ _ hr)

theorem tf_queue_mem (p : Provider) (dir : TraversalDirection)
    (nf : Option (Finset String)) {maxDepth : Int} (hmd : maxDepth < 0) :
    ∀ fuel (v : Finset String) q out v',
      traverseFrom p dir maxDepth nf fuel v q = some (out, v') →
      ∀ x ∈ q, x.1 ∈ v' := by
  intro fuel
  induction fuel with
  | zero =>
    intro v q out v' h
    cases q with
    | nil => intro x hx; exact absurd hx (by simp)
    | cons x rest =>
      obtain ⟨c, d⟩ := x
      rw [tf_stop] at h
      exact absurd h (by simp)
  | succ k ih =>
    intro v q out v' h
    cases q with
    | nil => intro x hx; exact absurd hx (by simp)
    | cons x rest =>
      obtain ⟨c, d⟩ := x
      have hd : ¬(0 ≤ maxDepth ∧ maxDepth < (d : Int)) := by omega
      by_cases hc : c ∈ v
      · rw [tf_visited hc] at h
        intro x hx
        rcases List.mem_cons.mp hx with rfl | hx'
        · exact tf_visited_subset p dir maxDepth nf k v rest out v' h hc
        · exact ih v rest out v' h x hx'
      · by_cases hf : truthy nf ∧ p.nodeTypeOf c ∉ nfSet nf
        · rw [tf_filtered hc hd hf] at h
          intro x hx
          rcases List.mem_cons.mp hx with rfl | hx'
          · exact tf_visited_subset p dir maxDepth nf k _ rest out v' h
              (Finset.mem_insert_self c v)
          · exact ih _ rest out v' h x hx'
        · obtain ⟨out1, rfl, hr⟩ := tf_yield_inv hc hd hf h
          intro x hx
          rcases List.mem_cons.mp hx with rfl | hx'
          · exact tf_visited_subset p dir maxDepth nf k _ _ out1 v' hr
              (Finset.mem_insert_self c v)
          · exact ih _ _ out1 v' hr x (List.mem_append_left _ hx')

theorem tf_closed (p : Provider) (dir : TraversalDirection)
    {maxDepth : Int} {nf : Option (Finset String)}
    (hmd : maxDepth < 0) (hnf : truthy nf = false) :
    ∀ fuel (v : Finset String) q out v',
      traverseFrom p dir maxDepth nf fuel v q = some (out, v') →
      ∀ x, x ∈ v' → x ∉ v → ∀ m ∈ nextNodes p dir x, m ∈ v' := by
  intro fuel
  induction fuel with
  | zero =>
    intro v q out v' h
    cases q with
    | nil =>
      obtain ⟨rfl, rfl⟩ := tf_nil_inv h
      intro x hx hxv
      exact absurd hx hxv
    | cons y rest =>
      obtain ⟨c, d⟩ := y
      rw [tf_stop] at h
      exact absurd h (by simp)
  | succ k ih =>
    intro v q out v' h
    cases q with
    | nil =>
      obtain ⟨rfl, rfl⟩ := tf_nil_inv h
      intro x hx hxv
      exact absurd hx hxv
    | cons y rest =>
      obtain ⟨c, d⟩ := y
      have hd : ¬(0 ≤ maxDepth ∧ maxDepth < (d : Int)) := by omega
      have hf : ¬(truthy nf ∧ p.nodeTypeOf c ∉ nfSet nf) := by simp [hnf]
      by_cases hc : c ∈ v
      · rw [tf_visited hc] at h
        exact ih v rest out v' h
      · obtain ⟨out1, rfl, hr⟩ := tf_yield_inv hc hd hf h
        intro x hx hxv m hm
        by_cases hxi : x ∈ insert c v
        · have hxc : x = c := by
            rcases Finset.mem_insert.mp hxi with h1 | h1
            · exact h1
            · exact absurd h1 hxv
          subst hxc
          by_cases hmi : m ∈ insert x v
          · exact tf_visited_subset p dir maxDepth nf k _ _ out1 v' hr hmi
          · have hmq : (m, d + 1) ∈ rest ++ enqueued p dir (insert x v) x d :=
              List.mem_append_right _ (mem_enqueued.mpr ⟨hm, hmi⟩)
            exact tf_queue_mem p dir nf hmd k _ _ out1 v' hr (m, d + 1) hmq
        · exact ih _ _ out1 v' hr x hx hxi m hm

theorem tf_out_iff (p : Provider) (dir : TraversalDirection)
    {maxDepth : Int} {nf : Option (Finset String)}
    (hmd : maxDepth < 0) (hnf : truthy nf = false) :
    ∀ fuel (v : Finset String) q out v',
      traverseFrom p dir maxDepth nf fuel v q = some (out, v') →
      ∀ x, x ∈ out.map Prod.fst ↔ (x ∈ v' ∧ x ∉ v) := by
  intro fuel
  induction fuel with
  | zero =>
    intro v q out v' h
    cases q with
    | nil =>
      obtain ⟨rfl, rfl⟩ := tf_nil_inv h
      intro x
      simp
    | cons y rest =>
      obtain ⟨c, d⟩ := y
      rw [tf_stop] at h
      exact absurd h (by simp)
  | succ k ih =>
    intro v q out v' h
    cases q with
    | nil =>
      obtain ⟨rfl, rfl⟩ := tf_nil_inv h
      intro x
      simp
    | cons y rest =>
      obtain ⟨c, d⟩ := y
      have hd : ¬(0 ≤ maxDepth ∧ maxDepth < (d : Int)) := by omega
      have hf : ¬(truthy nf ∧ p.nodeTypeOf c ∉ nfSet nf) := by simp [hnf]
      by_cases hc : c ∈ v
      · rw [tf_visited hc] at h
        exact ih v rest out v' h
      · obtain ⟨out1, rfl, hr⟩ := tf_yield_inv hc hd hf h
        intro x
        have hsub : insert c v ⊆ v' := tf_visited_subset p dir maxDepth nf k _ _ out1 v' hr
        have hih := ih _ _ out1 v' hr x
        simp only [List.map_cons, List.mem_cons]
        constructor
        · rintro (hxc | hx1)
          · rw [hxc]
            exact ⟨hsub (Finset.mem_insert_self c v), hc⟩
          · obtain ⟨h1, h2⟩ := hih.mp hx1
            exact ⟨h1, fun hxv => h2 (Finset.mem_insert_of_mem hxv)⟩
        · rintro ⟨h1, h2⟩
          by_cases hxc : x = c
          · exact Or.inl hxc
          · exact Or.inr (hih.mpr ⟨h1, by simp [hxc, h2]⟩)

theorem tf_nodup (p : Provider) (dir : TraversalDirection) (maxDepth : Int)
    (nf : Option (Finset String)) :
    ∀ fuel (v : Finset String) q out v',
      traverseFrom p dir maxDepth nf fuel v q = some (out, v') →
      (∀ x ∈ out, x.1 ∉ v) ∧ (out.map Prod.fst).Nodup := by
  intro fuel
  induction fuel with
  | zero =>
    intro v q out v' h
    cases q with
    | nil =>
      obtain ⟨rfl, rfl⟩ := tf_nil_inv h
      simp
    | cons y rest =>
      obtain ⟨c, d⟩ := y
      rw [tf_stop] at h
      exact absurd h (by simp)
  | succ k ih =>
    intro v q out v' h
    cases q with
    | nil =>
      obtain ⟨rfl, rfl⟩ := tf_nil_inv h
      simp
    | cons y rest =>
      obtain ⟨c, d⟩ := y
      by_cases hc : c ∈ v
      · rw [tf_visited hc] at h
        exact ih v rest out v' h
      · by_cases hd : 0 ≤ maxDepth ∧ maxDepth < (d : Int)
        · rw [tf_deep hd] at h
          exact ih v rest out v' h
        · by_cases hf : truthy nf ∧ p.nodeTypeOf c ∉ nfSet nf
          · rw [tf_filtered hc hd hf] at h
            obtain ⟨h1, h2⟩ := ih _ rest out v' h
            exact ⟨fun x hx hxv => h1 x hx (Finset.mem_insert_of_mem hxv), h2⟩
          · obtain ⟨out1, rfl, hr⟩ := tf_yield_inv hc hd hf h
            obtain ⟨h1, h2⟩ := ih _ _ out1 v' hr
            constructor
            · intro x hx
              rcases List.mem_cons.mp hx with rfl | hx'
              · exact hc
              · exact fun hxv => h1 x hx' (Finset.mem_insert_of_mem hxv)
            · simp only [List.map_cons, List.nodup_cons]
              constructor
              · intro hcmem
                obtain ⟨x, hx1, hx2⟩ := List.mem_map.mp hcmem
                exact h1 x hx1 (hx2 ▸ Finset.mem_insert_self c v)
              · exact h2

theorem tf_reach (p : Provider) (dir : TraversalDirection) (maxDepth : Int)
    (nf : Option (Finset String)) (start : String) :
    ∀ fuel (v : Finset String) q out v',
      traverseFrom p dir maxDepth nf fuel v q = some (out, v') →
      (∀ x ∈ q, ReachPass p dir nf start x.1) →
      ∀ x ∈ out, ReachPass p dir nf start x.1 ∧ passes p nf x.1 := by
  intro fuel
  induction fuel with
  | zero =>
    intro v q out v' h hq
    cases q with
    | nil =>
      obtain ⟨rfl, rfl⟩ := tf_nil_inv h
      intro x hx
      exact absurd hx (by simp)
    | cons y rest =>
      obtain ⟨c, d⟩ := y
      rw [tf_stop] at h
      exact absurd h (by simp)
  | succ k ih =>
    intro v q out v' h hq
    cases q with
    | nil =>
      obtain ⟨rfl, rfl⟩ := tf_nil_inv h
      intro x hx
      exact absurd hx (by simp)
    | cons y rest =>
      obtain ⟨c, d⟩ := y
      by_cases hc : c ∈ v
      · rw [tf_visited hc] at h
        exact ih v rest out v' h (fun x hx => hq x (List.mem_cons_of_mem _ hx))
      · by_cases hd : 0 ≤ maxDepth ∧ maxDepth < (d : Int)
        · rw [tf_deep hd] at h
          exact ih v rest out v' h (fun x hx => hq x (List.mem_cons_of_mem _ hx))
        · by_cases hf : truthy nf ∧ p.nodeTypeOf c ∉ nfSet nf
          · rw [tf_filtered hc hd hf] at h
            exact ih _ rest out v' h (fun x hx => hq x (List.mem_cons_of_mem _ hx))
          · have hpass : passes p nf c := by
              rcases Bool.eq_false_or_eq_true (truthy nf) with h1 | h1
              · right
                by_contra h2
                exact hf ⟨h1, h2⟩
              · exact Or.inl h1
            have hreachc : ReachPass p dir nf start c :=
              hq (c, d) (List.mem_cons_self _ _)
            obtain ⟨out1, rfl, hr⟩ := tf_yield_inv hc hd hf h
            have hq' : ∀ x ∈ rest ++ enqueued p dir (insert c v) c d,
                ReachPass p dir nf start x.1 := by
              intro x hx
              rcases List.mem_append.mp hx with hx1 | hx2
              · exact hq x (List.mem_cons_of_mem _ hx1)
              · exact ReachPass.step hreachc hpass (mem_enqueued_elim hx2).1
            intro x hx
            rcases List.mem_cons.mp hx with rfl | hx'
            · exact ⟨hreachc, hpass⟩
            · exact ih _ _ out1 v' hr hq' x hx'

theorem reach_start_stuck (p : Provider) (dir : TraversalDirection)
    (nf : Option (Finset String)) {start : String} (hs : ¬passes p nf start) :
    ∀ x, ReachPass p dir nf start x → x = start := by
  intro x hx
  induction hx with
  | refl => rfl
  | step hr hp hm ih => exact absurd (ih ▸ hp) hs

theorem tf_deepqueue (p : Provider) (dir : TraversalDirection)
    {maxDepth : Int} (nf : Option (Finset String)) :
    ∀ fuel (v : Finset String) q,
      (∀ x ∈ q, 0 ≤ maxDepth ∧ maxDepth < (x.2 : Int)) →
      ∀ out v', traverseFrom p dir maxDepth nf fuel v q = some (out, v') →
      out = [] ∧ v' = v := by
  intro fuel
  induction fuel with
  | zero =>
    intro v q hq out v' h
    cases q with
    | nil => exact tf_nil_inv h
    | cons y rest =>
      obtain ⟨c, d⟩ := y
      rw [tf_stop] at h
      exact absurd h (by simp)
  | succ k ih =>
    intro v q hq out v' h
    cases q with
    | nil => exact tf_nil_inv h
    | cons y rest =>
      obtain ⟨c, d⟩ := y
      have hd : 0 ≤ maxDepth ∧ maxDepth < (d : Int) := hq (c, d) (List.mem_cons_self _ _)
      rw [tf_deep hd] at h
      exact ih v rest (fun x hx => hq x (List.mem_cons_of_mem _ hx)) out v' h

/-- Fuel sufficiency: on a finite universe `univ` closed under `nextNodes`
with adjacency lists of length at most `L`, the loop finishes once the fuel
exceeds the potential `q.length + (univ \ v).card * (1 + L)`, since every
iteration strictly decreases that potential. -/
theorem tf_terminates (p : Provider) (dir : TraversalDirection) (maxDepth : Int)
    (nf : Option (Finset String)) (univ : Finset String) (L : Nat)
    (hclosed : ∀ n ∈ univ, ∀ m ∈ nextNodes p dir n, m ∈ univ)
    (hL : ∀ n ∈ univ, (nextNodes p dir n).length ≤ L) :
    ∀ fuel (v : Finset String) (q : List (String × Nat)),
      (∀ x ∈ q, x.1 ∈ univ) →
      q.length + (univ \ v).card * (1 + L) < fuel →
      ∃ r, traverseFrom p dir maxDepth nf fuel v q = some r := by
  intro fuel
  induction fuel with
  | zero =>
    intro v q hq hfuel
    exact absurd hfuel (Nat.not_lt_zero _)
  | succ k ih =>
    intro v q hq hfuel
    cases q with
    | nil => exact ⟨([], v), tf_nil p dir maxDepth nf (k + 1) v⟩
    | cons y rest =>
      obtain ⟨c, d⟩ := y
      have hcu : c ∈ univ := hq (c, d) (List.mem_cons_self _ _)
      have hrest : ∀ x ∈ rest, x.1 ∈ univ := fun x hx => hq x (List.mem_cons_of_mem _ hx)
      by_cases hc : c ∈ v
      · rw [tf_visited hc]
        apply ih v rest hrest
        simp only [List.length_cons] at hfuel
        omega
      · have hcard : (univ \ insert c v).card + 1 ≤ (univ \ v).card := by
          have hsub : univ \ insert c v ⊆ univ \ v :=
            Finset.sdiff_subset_sdiff (Finset.Subset.refl univ) (Finset.subset_insert c v)
          have hcm : c ∈ univ \ v := Finset.mem_sdiff.mpr ⟨hcu, hc⟩
          have hcn : c ∉ univ \ insert c v := by
            simp [Finset.mem_sdiff]
          have hss : univ \ insert c v ⊂ univ \ v := ⟨hsub, fun hs => hcn (hs hcm)⟩
          exact Finset.card_lt_card hss
        have hmul : ((univ \ insert c v).card + 1) * (1 + L) ≤ (univ \ v).card * (1 + L) :=
          Nat.mul_le_mul_right _ hcard
        rw [Nat.succ_mul] at hmul
        by_cases hd : 0 ≤ maxDepth ∧ maxDepth < (d : Int)
        · rw [tf_deep hd]
          apply ih v rest hrest
          simp only [List.length_cons] at hfuel
          omega
        · by_cases hf : truthy nf ∧ p.nodeTypeOf c ∉ nfSet nf
          · rw [tf_filtered hc hd hf]
            apply ih (insert c v) rest hrest
            simp only [List.length_cons] at hfuel
            omega
          · rw [tf_yield hc hd hf]
            have henqlen : (enqueued p dir (insert c v) c d).length ≤ L := by
              have h1 : (enqueued p dir (insert c v) c d).length ≤
                  (nextNodes p dir c).length := by
                simp only [enqueued, List.length_map]
                exact List.length_filter_le _ _
              exact h1.trans (hL c hcu)
            have hq' : ∀ x ∈ rest ++ enqueued p dir (insert c v) c d, x.1 ∈ univ := by
              intro x hx
              rcases List.mem_append.mp hx with hx1 | hx2
              · exact hrest x hx1
              · exact hclosed c hcu x.1 (mem_enqueued_elim hx2).1
            obtain ⟨r, hr⟩ := ih (insert c v) (rest ++ enqueued p dir (insert c v) c d) hq'
              (by
                simp only [List.length_append, List.length_cons] at hfuel ⊢
                omega)
            exact ⟨((c, d) :: r.1, r.2), by rw [hr]; rfl⟩

/-! ### Top-level glue lemmas -/

theorem traverse_graph_absent {p : Provider} {start : String} {dir : TraversalDirection}
    {maxDepth : Int} {nf : Option (Finset String)} {fuel : Nat}
    (hex : ¬p.objExists start = true) :
    traverse_graph p start dir maxDepth nf fuel = some [] := by
  simp [traverse_graph, hex]

theorem traverse_graph_some {p : Provider} {start : String} {dir : TraversalDirection}
    {maxDepth : Int} {nf : Option (Finset String)} {fuel : Nat}
    {out : List (String × Nat)} (hex : p.objExists start = true)
    (h : traverse_graph p start dir maxDepth nf fuel = some out) :
    ∃ v', traverseFrom p dir maxDepth nf fuel ∅ [(start, 0)] = some (out, v') := by
  rw [traverse_graph] at h
  rw [if_pos hex] at h
  obtain ⟨r, hr, hfr⟩ := Option.map_eq_some'.mp h
  exact ⟨r.2, by rw [hr, ← hfr]⟩

theorem foldl_append_eq_filter (p : Provider) (target : String) :
    ∀ (l : List (String × Nat)) (acc : List String),
      l.foldl (fun acc x => if p.nodeTypeOf x.1 = target then acc ++ [x.1] else acc) acc =
        acc ++ (l.map Prod.fst).filter (fun n => decide (p.nodeTypeOf n = target)) := by
  intro l
  induction l with
  | nil => intro acc; simp
  | cons x xs ih =>
    intro acc
    simp only [List.foldl_cons, List.map_cons, List.filter_cons]
    by_cases hx : p.nodeTypeOf x.1 = target
    · rw [if_pos hx, ih]
      simp [hx]
    · rw [if_neg hx, ih]
      simp [hx]

theorem count_enqueued (p : Provider) (dir : TraversalDirection) (vis : Finset String)
    (c n : String) (d : Nat) :
    (enqueued p dir vis c d).count (n, d + 1) =
      if n ∈ vis then 0 else (nextNodes p dir c).count n := by
  unfold enqueued
  induction nextNodes p dir c with
  | nil => simp
  | cons a l ih =>
    by_cases ha : a ∈ vis
    · rw [List.filter_cons_of_neg (by simpa using ha)]
      rw [ih]
      by_cases hn : n ∈ vis
      · simp [hn]
      · have hne : (a == n) = false := by
          simp only [beq_eq_false_iff_ne]
          exact fun h => hn (h ▸ ha)
        simp [hn, List.count_cons, hne]
    · rw [List.filter_cons_of_pos (by simpa using ha), List.map_cons, List.count_cons, ih]
      by_cases hn : n ∈ vis
      · have hane : a ≠ n := fun h => ha (h ▸ hn)
        have hne : (((a, d + 1) : String × Nat) == (n, d + 1)) = false := by
          simp [hane]
        simp [hn, hne]
      · have hbeq : (((a, d + 1) : String × Nat) == (n, d + 1)) = (a == n) := by
          by_cases hane : a = n <;> simp [hane]
        simp [hn, List.count_cons, hbeq]

/-! ### Claims -/

/-- C1: With a non-empty type filter, a dequeued unvisited, depth-admissible
node whose type is not in the filter is marked visited and is neither yielded
nor expanded (first conjunct: the loop step only inserts it into the visited
set and drops it).  Consequently every yielded node is reachable from the
start through filter-passing nodes only (second conjunct), so descendants
reachable only through a filtered-out node never appear; in particular when
the start node's own type is excluded the output is empty (third conjunct). -/
theorem C1_filter_prunes (p : Provider) (dir : TraversalDirection) (maxDepth : Int)
    (nf : Option (Finset String)) (fuel : Nat) :
    (∀ (v : Finset String) (c : String) (d : Nat) (rest : List (String × Nat)),
      c ∉ v → ¬(0 ≤ maxDepth ∧ maxDepth < (d : Int)) → truthy nf = true →
      p.nodeTypeOf c ∉ nfSet nf →
      traverseFrom p dir maxDepth nf (fuel + 1) v ((c, d) :: rest) =
        traverseFrom p dir maxDepth nf fuel (insert c v) rest) ∧
    (∀ (start : String) (out : List (String × Nat)),
      traverse_graph p start dir maxDepth nf fuel = some out →
      ∀ x ∈ out, ReachPass p dir nf start x.1 ∧ passes p nf x.1) ∧
    (∀ (start : String) (out : List (String × Nat)),
      truthy nf = true → p.nodeTypeOf start ∉ nfSet nf →
      traverse_graph p start dir maxDepth nf fuel = some out → out = []) := by
  have key : ∀ (start : String) (out : List (String × Nat)),
      traverse_graph p start dir maxDepth nf fuel = some out →
      ∀ x ∈ out, ReachPass p dir nf start x.1 ∧ passes p nf x.1 := by
    intro start out h x hx
    by_cases hex : p.objExists start = true
    · obtain ⟨v', hv⟩ := traverse_graph_some hex h
      refine tf_reach p dir maxDepth nf start fuel ∅ _ out v' hv ?_ x hx
      intro y hy
      have hy1 : y = (start, 0) := List.mem_singleton.mp hy
      rw [hy1]
      exact ReachPass.refl
    · rw [traverse_graph_absent hex] at h
      injection h with h2
      rw [← h2] at hx
      exact absurd hx (by simp)
  refine ⟨fun v c d rest hc hd ht htype => tf_filtered hc hd ⟨ht, htype⟩, key, ?_⟩
  intro start out ht htype h
  have hs : ¬passes p nf start := by
    intro hps
    rcases hps with h1 | h1
    · rw [ht] at h1
      exact absurd h1 (by simp)
    · exact htype h1
  rcases List.eq_nil_or_concat out with rfl | ⟨l, x, rfl⟩
  · rfl
  · have hx : x ∈ l.concat x := by simp [List.concat_eq_append]
    obtain ⟨hr, hp⟩ := key start _ h x hx
    have hxs : x.1 = start := reach_start_stuck p dir nf hs x.1 hr
    rw [hxs] at hp
    exact absurd hp hs

/-- C1 witness: concrete instances of the three conjuncts on the chain
`A→B→C` with node types equal to node names.  With filter `{A, C}` the
dequeued node `B` is pruned in one step; with start `A` and filter `{A, C}`
every yielded record passes and is reach-passing; with filter `{B, C}`
(excluding the start's type) the whole output is empty. -/
theorem C1_filter_prunes_witness :
    (traverseFrom chainP TraversalDirection.downstream (-1)
        (some (insert "A" (insert "C" ∅))) 3 ∅ [("B", 1)] =
      traverseFrom chainP TraversalDirection.downstream (-1)
        (some (insert "A" (insert "C" ∅))) 2 (insert "B" ∅) []) ∧
    (ReachPass chainP TraversalDirection.downstream (some (insert "A" (insert "C" ∅))) "A" "A" ∧
      passes chainP (some (insert "A" (insert "C" ∅))) "A") ∧
    ([] : List (String × Nat)) = [] := by
  refine ⟨?_, ?_, ?_⟩
  · exact (C1_filter_prunes chainP TraversalDirection.downstream (-1)
      (some (insert "A" (insert "C" ∅))) 2).1 ∅ "B" 1 [] (by decide) (by decide)
      (by decide) (by decide)
  · exact (C1_filter_prunes chainP TraversalDirection.downstream (-1)
      (some (insert "A" (insert "C" ∅))) 6).2.1 "A" [("A", 0)] (by decide)
      ("A", 0) (by decide)
  · exact (C1_filter_prunes chainP TraversalDirection.downstream (-1)
      (some (insert "B" (insert "C" ∅))) 6).2.2 "A" [] (by decide) (by decide) (by decide)

/-- C2: For every provider whose reachable universe is finite (a finite set
`univ` containing the start node, closed under `nextNodes`, with adjacency
lists of bounded length), the traversal terminates: some fuel suffices, and
the output is stable for all larger fuels (first conjunct).  On the concrete
three-node cycle `A→B→C→A`, starting at `A` downstream with unlimited depth,
every fuel from 4 on yields exactly `(A,0), (B,1), (C,2)` and nothing more
(second conjunct). -/
theorem C2_terminates (p : Provider) (dir : TraversalDirection) (maxDepth : Int)
    (nf : Option (Finset String)) (start : String) (univ : Finset String) (L : Nat) :
    ((∀ n ∈ univ, ∀ m ∈ nextNodes p dir n, m ∈ univ) →
      (∀ n ∈ univ, (nextNodes p dir n).length ≤ L) →
      start ∈ univ →
      ∃ fuel out, ∀ fuel' ≥ fuel, traverse_graph p start dir maxDepth nf fuel' = some out) ∧
    (∀ fuel ≥ 4, traverse_graph cycleP "A" TraversalDirection.downstream (-1) none fuel =
      some [("A", 0), ("B", 1), ("C", 2)]) := by
  constructor
  · intro hclosed hL hstart
    by_cases hex : p.objExists start = true
    · obtain ⟨r, hr⟩ := tf_terminates p dir maxDepth nf univ L hclosed hL
        (2 + univ.card * (1 + L)) ∅ [(start, 0)]
        (by
          intro x hx
          have hx1 : x = (start, 0) := List.mem_singleton.mp hx
          rw [hx1]
          exact hstart)
        (by simp)
      refine ⟨2 + univ.card * (1 + L), r.1, ?_⟩
      intro fuel' hfuel'
      rw [traverse_graph, if_pos hex,
        tf_mono p dir maxDepth nf (2 + univ.card * (1 + L)) fuel' ∅ [(start, 0)] r hfuel' hr]
      rfl
    · exact ⟨0, [], fun fuel' _ => traverse_graph_absent hex⟩
  · intro fuel hfuel
    have hbase : traverseFrom cycleP TraversalDirection.downstream (-1) none 4 ∅
        [("A", 0)] =
        some ([("A", 0), ("B", 1), ("C", 2)], insert "C" (insert "B" (insert "A" ∅))) := by
      decide
    rw [traverse_graph, if_pos (by decide),
      tf_mono cycleP TraversalDirection.downstream (-1) none 4 fuel ∅ [("A", 0)] _ hfuel hbase]
    rfl

/-- C2 witness: on the concrete cycle provider the general termination part
holds with universe `{A, B, C}` and neighbor bound 1, and the scenario part
holds at fuel 4. -/
theorem C2_terminates_witness :
    (∃ fuel out, ∀ fuel' ≥ fuel,
      traverse_graph cycleP "A" TraversalDirection.downstream (-1) none fuel' = some out) ∧
    traverse_graph cycleP "A" TraversalDirection.downstream (-1) none 4 =
      some [("A", 0), ("B", 1), ("C", 2)] := by
  constructor
  · exact (C2_terminates cycleP TraversalDirection.downstream (-1) none "A"
      (insert "A" (insert "B" (insert "C" ∅))) 1).1 (by decide) (by decide) (by decide)
  · exact (C2_terminates cycleP TraversalDirection.downstream (-1) none "A" ∅ 0).2 4
      (le_refl 4)

/-- C3: No node is ever yielded twice — the yielded node names are pairwise
distinct for every direction, depth limit and filter (first conjunct; this
reflects that a node enters the visited set at most once and is never
re-enqueued once visited).  With no filter and unlimited depth the yielded
node set is exactly the set of nodes reachable from the start in the chosen
direction (second conjunct); together these give "each reachable node exactly
once" for every graph — in particular for every acyclic one — regardless of
direction. -/
theorem C3_visit_once (p : Provider) (dir : TraversalDirection) (start : String)
    (fuel : Nat) :
    (∀ (maxDepth : Int) (nf : Option (Finset String)) (out : List (String × Nat)),
      traverse_graph p start dir maxDepth nf fuel = some out →
      (out.map Prod.fst).Nodup) ∧
    (∀ (maxDepth : Int) (out : List (String × Nat)), maxDepth < 0 →
      traverse_graph p start dir maxDepth none fuel = some out →
      p.objExists start = true →
      ∀ x, x ∈ out.map Prod.fst ↔ ReachPass p dir none start x) := by
  constructor
  · intro maxDepth nf out h
    by_cases hex : p.objExists start = true
    · obtain ⟨v', hv⟩ := traverse_graph_some hex h
      exact (tf_nodup p dir maxDepth nf fuel ∅ _ out v' hv).2
    · rw [traverse_graph_absent hex] at h
      injection h with h2
      rw [← h2]
      exact List.nodup_nil
  · intro maxDepth out hmd h hex x
    obtain ⟨v', hv⟩ := traverse_graph_some hex h
    have hnone : truthy (none : Option (Finset String)) = false := rfl
    have hiff := tf_out_iff p dir hmd hnone fuel ∅ _ out v' hv x
    have hstartq : ∀ y ∈ ([((start : String), (0 : Nat))] : List (String × Nat)),
        y.1 ∈ v' := tf_queue_mem p dir none hmd fuel ∅ _ out v' hv
    constructor
    · intro hx
      obtain ⟨y, hy, rfl⟩ := List.mem_map.mp hx
      exact (tf_reach p dir maxDepth none start fuel ∅ _ out v' hv
        (by
          intro z hz
          have hz1 : z = (start, 0) := List.mem_singleton.mp hz
          rw [hz1]
          exact ReachPass.refl) y hy).1
    · intro hreach
      have hmemv : ∀ z, ReachPass p dir none start z → z ∈ v' := by
        intro z hz
        induction hz with
        | refl => exact hstartq (start, 0) (List.mem_singleton.mpr rfl)
        | step hr hp hm ih =>
          exact tf_closed p dir hmd hnone fuel ∅ _ out v' hv _ ih (by simp) _ hm
      exact hiff.mpr ⟨hmemv x hreach, by simp⟩

/-- C3 witness: on the downstream cycle from `A` the output node list
`[A, B, C]` has no duplicates, and node `C` is yielded iff it is reachable. -/
theorem C3_visit_once_witness :
    ((([("A", 0), ("B", 1), ("C", 2)] : List (String × Nat)).map Prod.fst).Nodup) ∧
    ("C" ∈ (([("A", 0), ("B", 1), ("C", 2)] : List (String × Nat)).map Prod.fst) ↔
      ReachPass cycleP TraversalDirection.downstream none "A" "C") := by
  constructor
  · exact (C3_visit_once cycleP TraversalDirection.downstream "A" 10).1 (-1) none
      [("A", 0), ("B", 1), ("C", 2)] (by decide)
  · exact (C3_visit_once cycleP TraversalDirection.downstream "A" 10).2 (-1)
      [("A", 0), ("B", 1), ("C", 2)] (by decide) (by decide) (by decide) "C"

/-- C4: `max_depth` is a depth ceiling.  First conjunct: when
`max_depth >= 0`, a dequeued record whose depth exceeds it is dropped in one
loop step — not yielded, not expanded, visited set unchanged.  Second
conjunct: every negative `max_depth` gives the same traversal (the bound is
never consulted), i.e. the traversal is unbounded.  Third conjunct:
`max_depth = 0` yields exactly the start node when it passes the filter and
nothing at all otherwise. -/
theorem C4_depth_ceiling (p : Provider) (dir : TraversalDirection)
    (nf : Option (Finset String)) :
    (∀ (maxDepth : Int) (fuel : Nat) (v : Finset String) (c : String) (d : Nat)
      (rest : List (String × Nat)),
      0 ≤ maxDepth → maxDepth < (d : Int) →
      traverseFrom p dir maxDepth nf (fuel + 1) v ((c, d) :: rest) =
        traverseFrom p dir maxDepth nf fuel v rest) ∧
    (∀ (maxDepth maxDepth' : Int) (start : String) (fuel : Nat),
      maxDepth < 0 → maxDepth' < 0 →
      traverse_graph p start dir maxDepth nf fuel =
        traverse_graph p start dir maxDepth' nf fuel) ∧
    (∀ (start : String) (fuel : Nat) (out : List (String × Nat)),
      p.objExists start = true →
      traverse_graph p start dir 0 nf fuel = some out →
      out = if truthy nf ∧ p.nodeTypeOf start ∉ nfSet nf then [] else [(start, 0)]) := by
  refine ⟨fun maxDepth fuel v c d rest h1 h2 => tf_deep ⟨h1, h2⟩, ?_, ?_⟩
  · intro maxDepth maxDepth' start fuel h h'
    simp only [traverse_graph]
    rw [tf_congr_negdepth p dir nf h h' fuel ∅ [(start, 0)]]
  · intro start fuel out hex h
    obtain ⟨v', hv⟩ := traverse_graph_some hex h
    cases fuel with
    | zero =>
      rw [tf_stop] at hv
      exact absurd hv (by simp)
    | succ k =>
      have hc : start ∉ (∅ : Finset String) := by simp
      have hd : ¬(0 ≤ (0 : Int) ∧ (0 : Int) < ((0 : Nat) : Int)) := by simp
      by_cases hf : truthy nf ∧ p.nodeTypeOf start ∉ nfSet nf
      · rw [tf_filtered hc hd hf] at hv
        obtain ⟨rfl, rfl⟩ := tf_nil_inv hv
        rw [if_pos hf]
      · obtain ⟨out1, rfl, hr⟩ := tf_yield_inv hc hd hf hv
        have hdeep : ∀ x ∈ ([] : List (String × Nat)) ++
            enqueued p dir (insert start ∅) start 0, 0 ≤ (0 : Int) ∧ (0 : Int) < (x.2 : Int) := by
          intro x hx
          rw [List.nil_append] at hx
          have h2 := (mem_enqueued_elim hx).2.2
          constructor
          · exact le_refl 0
          · rw [h2]
            simp
        obtain ⟨rfl, rfl⟩ := tf_deepqueue p dir nf k _ _ hdeep out1 v' hr
        rw [if_neg hf]

/-- C4 witness: on the chain `A→B→C`, a record at depth 3 with ceiling 2 is
dropped in one step; traversals at the negative depths -1 and -5 agree; and
with `max_depth = 0` the unfiltered downstream traversal from `A` yields
exactly `[(A, 0)]`. -/
theorem C4_depth_ceiling_witness :
    (traverseFrom chainP TraversalDirection.downstream 2 none 6 ∅ [("C", 3)] =
      traverseFrom chainP TraversalDirection.downstream 2 none 5 ∅ []) ∧
    (traverse_graph chainP "A" TraversalDirection.downstream (-1) none 7 =
      traverse_graph chainP "A" TraversalDirection.downstream (-5) none 7) ∧
    ([(("A" : String), (0 : Nat))] =
      if truthy (none : Option (Finset String)) ∧
          chainP.nodeTypeOf "A" ∉ nfSet (none : Option (Finset String)) then []
      else [("A", 0)]) := by
  refine ⟨?_, ?_, ?_⟩
  · exact (C4_depth_ceiling chainP TraversalDirection.downstream none).1 2 5 ∅ "C" 3 []
      (by decide) (by decide)
  · exact (C4_depth_ceiling chainP TraversalDirection.downstream none).2.1 (-1) (-5) "A" 7
      (by decide) (by decide)
  · exact (C4_depth_ceiling chainP TraversalDirection.downstream none).2.2 "A" 5 [("A", 0)]
      (by decide) (by decide)

/-- C5 counterexample: node `n` has exactly one connected link pair
`("n.out", "o.in")` — `n`'s own port `out` is the output side — yet
`get_all_connections` returns the single record with `source_node = "o"` and
`dest_node = "n"`, not `source = n, dest = o` as the claim states: when the
first plug of a pair lies on the queried node, the code stores the *other*
endpoint as the source. -/
theorem C5_counterexample :
    get_all_connections plugP "n" =
      [{ source_node := "o", source_attr := "in", dest_node := "n", dest_attr := "out" }] ∧
    ("o" : String) ≠ "n" := by
  constructor
  · decide
  · decide

/-- C5 amended: for every node with exactly one connected link pair whose
first plug lies on the node itself (as with an outbound pair
`(node.outPort, other.inPort)`), `get_all_connections` returns exactly one
record with `source = the other endpoint` and `dest = node` — the extractor
treats the endpoint equal to the queried node as the destination. -/
theorem C5_single_pair_oriented (p : Provider) (node aa nb ab pa pb : String)
    (hex : p.objExists node = true)
    (hplugs : p.plugConns node = [pa, pb])
    (ha : splitPlug pa = (node, aa))
    (hb : splitPlug pb = (nb, ab)) :
    get_all_connections p node =
      [{ source_node := nb, source_attr := ab, dest_node := node, dest_attr := aa }] := by
  rw [get_all_connections, if_pos hex, hplugs]
  show [mkConnection node pa pb] = _
  rw [mkConnection]
  simp [ha, hb]

/-- C5 witness: the amended statement instantiated on the concrete provider
with the single outbound pair `("n.out", "o.in")`. -/
theorem C5_single_pair_oriented_witness :
    get_all_connections plugP "n" =
      [{ source_node := "o", source_attr := "in", dest_node := "n", dest_attr := "out" }] :=
  C5_single_pair_oriented plugP "n" "out" "o" "in" "n.out" "o.in" (by decide) (by decide)
    (by decide) (by decide)

/-- C6: if the start node does not exist in the provider, `traverse_graph`
logs and returns without raising: the produced sequence is empty (for every
direction, depth bound, filter and fuel). -/
theorem C6_absent_start (p : Provider) (start : String) (dir : TraversalDirection)
    (maxDepth : Int) (nf : Option (Finset String)) (fuel : Nat)
    (h : p.objExists start = false) :
    traverse_graph p start dir maxDepth nf fuel = some [] := by
  simp [traverse_graph, h]

/-- C6 witness: the cycle provider has no node `Z`. -/
theorem C6_absent_start_witness :
    traverse_graph cycleP "Z" TraversalDirection.both (-1) none 5 = some [] :=
  C6_absent_start cycleP "Z" TraversalDirection.both (-1) none 5 (by decide)

/-- C7: `find_connected_nodes_by_type` drives `traverse_graph` with no filter
and unlimited depth, and returns exactly the yielded nodes whose type equals
the target — i.e. the filter of the unfiltered traversal's node list — which
is a sublist (hence a subsequence in the same relative order) of that
unfiltered output. -/
theorem C7_find_by_type (p : Provider) (start target : String) (dir : TraversalDirection)
    (fuel : Nat) (out : List (String × Nat))
    (h : traverse_graph p start dir (-1) none fuel = some out) :
    find_connected_nodes_by_type p start target dir fuel =
      some ((out.map Prod.fst).filter (fun n => decide (p.nodeTypeOf n = target))) ∧
    List.Sublist
      ((out.map Prod.fst).filter (fun n => decide (p.nodeTypeOf n = target)))
      (out.map Prod.fst) := by
  constructor
  · rw [find_connected_nodes_by_type, h]
    rw [Option.map_some']
    rw [foldl_append_eq_filter p target out []]
    rw [List.nil_append]
  · exact List.filter_sublist _

/-- C7 witness: downstream from `A` on the cycle, the full traversal yields
`A, B, C` and the typed query for type `B` returns the sublist `[B]`. -/
theorem C7_find_by_type_witness :
    (find_connected_nodes_by_type cycleP "A" "B" TraversalDirection.downstream 6 =
      some (((([("A", 0), ("B", 1), ("C", 2)] : List (String × Nat)).map Prod.fst)).filter
        (fun n => decide (cycleP.nodeTypeOf n = "B")))) ∧
    List.Sublist
      (((([("A", 0), ("B", 1), ("C", 2)] : List (String × Nat)).map Prod.fst)).filter
        (fun n => decide (cycleP.nodeTypeOf n = "B")))
      (([("A", 0), ("B", 1), ("C", 2)] : List (String × Nat)).map Prod.fst) :=
  C7_find_by_type cycleP "A" "B" TraversalDirection.downstream 6
    [("A", 0), ("B", 1), ("C", 2)] (by decide)

/-- C8 counterexample: the provider `dupP` lists `B` twice among the upstream
connections of `A`; in the single expansion step of `A` (visited set
`{A}`, depth 0) the engine appends the record `(B, 1)` to the queue twice —
the neighbor collection is not deduplicated before enqueueing. -/
theorem C8_counterexample :
    nextNodes dupP TraversalDirection.upstream "A" = ["B", "B"] ∧
    (enqueued dupP TraversalDirection.upstream (insert "A" ∅) "A" 0).count ("B", 1) = 2 := by
  constructor
  · decide
  · decide

/-- C8 amended: the engine does not deduplicate the neighbor collection of an
expansion step; it filters out already-visited neighbors and enqueues the
rest with multiplicity: a neighbor in the visited set is enqueued zero times,
and an unvisited neighbor is enqueued once per occurrence in the `next_nodes`
list (so duplicated adjacency entries are enqueued more than once; only the
dequeue-time visited check prevents re-visiting them). -/
theorem C8_no_dedup (p : Provider) (dir : TraversalDirection) (vis : Finset String)
    (c n : String) (d : Nat) :
    (n ∈ vis → (enqueued p dir vis c d).count (n, d + 1) = 0) ∧
    (n ∉ vis → (enqueued p dir vis c d).count (n, d + 1) = (nextNodes p dir c).count n) := by
  constructor
  · intro hn
    rw [count_enqueued, if_pos hn]
  · intro hn
    rw [count_enqueued, if_neg hn]

/-- C8 witness: in the expansion of `A` on `dupP`, the visited neighbor `A`
is enqueued zero times and the unvisited neighbor `B` exactly as often as it
occurs in the adjacency list (twice). -/
theorem C8_no_dedup_witness :
    ((enqueued dupP TraversalDirection.upstream (insert "A" ∅) "A" 0).count ("A", 1) = 0) ∧
    ((enqueued dupP TraversalDirection.upstream (insert "A" ∅) "A" 0).count ("B", 1) =
      (nextNodes dupP TraversalDirection.upstream "A").count "B") :=
  ⟨(C8_no_dedup dupP TraversalDirection.upstream (insert "A" ∅) "A" "A" 0).1 (by decide),
    (C8_no_dedup dupP TraversalDirection.upstream (insert "A" ∅) "A" "B" 0).2 (by decide)⟩

/-- C9: constructing `DGIterator` resolves the start name through the host at
construction time; when resolution fails (name missing or ambiguous) the
failure propagates out of the constructor — no iterator object is produced,
rather than a constructed iterator later returning an empty list. -/
theorem C9_construct_fails (host : MayaHost) (start e : String)
    (h : host.resolveUnique start = Except.error e) :
    DGIterator.construct host start = Except.error e := by
  rw [DGIterator.construct, h]

/-- C9 witness: a host on which every name resolution fails as ambiguous. -/
theorem C9_construct_fails_witness :
    DGIterator.construct ⟨fun _ => Except.error "ambiguous"⟩ "node1" =
      Except.error "ambiguous" :=
  C9_construct_fails ⟨fun _ => Except.error "ambiguous"⟩ "node1" "ambiguous" rfl

/-- C10: passing the empty set as the type filter behaves identically to
passing no filter at all, for every provider, start node, direction, depth
bound and fuel — Python's `if node_filter:` is false for both `None` and the
empty set, so the filter is only consulted when the supplied set is
non-empty. -/
theorem C10_empty_filter (p : Provider) (start : String) (dir : TraversalDirection)
    (maxDepth : Int) (fuel : Nat) :
    traverse_graph p start dir maxDepth (some ∅) fuel =
      traverse_graph p start dir maxDepth none fuel := by
  have h : ∀ (f : Nat) (v : Finset String) (q : List (String × Nat)),
      traverseFrom p dir maxDepth (some ∅) f v q = traverseFrom p dir maxDepth none f v q :=
    tf_congr_filter p dir maxDepth (by decide) (by decide)
  simp only [traverse_graph]
  rw [h fuel ∅ [(start, 0)]]
